import Mathlib

/-!
Verification of the UV-layout drawing pipeline (src/main.py, src/settings.py).

Shallow embedding conventions:
* UV coordinates (Python floats) are rationals.
* Python `int(x)` is truncation toward zero (`pyInt`).
* Python dicts are insertion-ordered association lists; `dictSet` models
  `d[k] = v`, `dictAppend` models `defaultdict(list)`'s `d[k].append(v)`,
  `dictGetNat` models `d.get(k, 0)`.
* Python sets of ints are modelled through `List.dedup` of the generating
  list (only cardinality and membership of the set are ever used).
-/

/-- Python `int(q)`: truncation toward zero. -/
def pyInt (q : ℚ) : ℤ := if q < 0 then -⌊-q⌋ else ⌊q⌋

/-- `get_udim_from_uv` (src/main.py 8-21): UDIM tile of a single UV
coordinate, `-1` when out of bounds. -/
def get_udim_from_uv (u v : ℚ) : ℤ :=
  if u < 0 ∨ u > 10 ∨ v < 0 then -1
  else 1001 + pyInt v * 10 + pyInt u

/-- `get_udim_from_uvs` (src/main.py 23-34): the set of tiles of all the
coordinates, collapsed to its unique element when the set is a singleton,
`-1` otherwise. -/
def get_udim_from_uvs (uvs : List (ℚ × ℚ)) : ℤ :=
  match (uvs.map (fun p => get_udim_from_uv p.1 p.2)).dedup with
  | [x] => x
  | _ => -1

/-- `is_front_facing` (src/main.py 56-71): trapezoid-shoelace accumulation
over the index range with wrap-around via `%`, front-facing iff the
accumulated signed value is strictly negative. -/
def is_front_facing (faces : List (ℚ × ℚ)) : Bool :=
  decide (((List.range faces.length).foldl
    (fun area i =>
      let p1 := faces.getD i (0, 0)
      let p2 := faces.getD ((i + 1) % faces.length) (0, 0)
      area + (p2.1 - p1.1) * (p2.2 + p1.2)) 0) < 0)

/-- One trapezoid term of the shoelace formula for the consecutive vertex
pair `(p1, p2)`. -/
def trap (p1 p2 : ℚ × ℚ) : ℚ := (p2.1 - p1.1) * (p2.2 + p1.2)

/-- Trapezoid sum along an open polyline (consecutive pairs, no wrap). -/
def polylineArea : List (ℚ × ℚ) → ℚ
  | p1 :: p2 :: rest => trap p1 p2 + polylineArea (p2 :: rest)
  | _ => 0

/-- The signed area of a closed polygon: the trapezoid shoelace sum over
consecutive vertex pairs including the wrap-around pair. -/
def signedArea (p : List (ℚ × ℚ)) : ℚ :=
  match p with
  | [] => 0
  | x :: _ => polylineArea (p ++ [x])

/-- Python dict assignment `d[k] = v` on an insertion-ordered association
list: update in place when the key is present, append otherwise. -/
def dictSet {α β : Type} [DecidableEq α] : List (α × β) → α → β → List (α × β)
  | [], k, v => [(k, v)]
  | (k', v') :: rest, k, v =>
      if k' = k then (k, v) :: rest else (k', v') :: dictSet rest k v

/-- Canonicalization of an edge `(a0, b0)` (src/main.py 50-52): swap so the
smaller index comes first. -/
def canonPair (a0 b0 : ℕ) : ℕ × ℕ := if a0 > b0 then (b0, a0) else (a0, b0)

/-- The canonical edge key written by iteration `i` of the loop in
`get_uv_edges_from_face`: consecutive pair with wrap-around via `%`. -/
def edgeKey (face_uvs : List ℕ) (i : ℕ) : ℕ × ℕ :=
  canonPair (face_uvs.getD i 0) (face_uvs.getD ((i + 1) % face_uvs.length) 0)

/-- `get_uv_edges_from_face` (src/main.py 36-54): dict from canonical edge
keys to the positions of the two endpoints, one assignment per consecutive
vertex pair (wrap pair included). -/
def get_uv_edges_from_face (face_uvs : List ℕ) (uv_positions : List (ℚ × ℚ)) :
    List ((ℕ × ℕ) × ((ℚ × ℚ) × (ℚ × ℚ))) :=
  (List.range face_uvs.length).foldl
    (fun edges i =>
      dictSet edges (edgeKey face_uvs i)
        (uv_positions.getD (edgeKey face_uvs i).1 (0, 0),
         uv_positions.getD (edgeKey face_uvs i).2 (0, 0)))
    []

/-- `defaultdict(list)` append `g[k].append(v)`: extend the list at key `k`
in place, or append a new entry `(k, [v])`. -/
def dictAppend : List (ℕ × List ℕ) → ℕ → ℕ → List (ℕ × List ℕ)
  | [], k, v => [(k, [v])]
  | (k', vs) :: rest, k, v =>
      if k' = k then (k, vs ++ [v]) :: rest else (k', vs) :: dictAppend rest k v

/-- `build_graph` (src/main.py 73-87): record every edge in both
directions in an insertion-ordered adjacency mapping. -/
def build_graph (edges : List (ℕ × ℕ)) : List (ℕ × List ℕ) :=
  edges.foldl (fun g e => dictAppend (dictAppend g e.1 e.2) e.2 e.1) []

/-- The keys of an adjacency mapping, in insertion order. -/
def keysOf (g : List (ℕ × List ℕ)) : List ℕ := g.map Prod.fst

/-- Dictionary lookup `graph[node]` as used by the traversal: the neighbor
list of a present key, `[]` for an absent one (`defaultdict` read). -/
def adjOf (g : List (ℕ × List ℕ)) (n : ℕ) : List ℕ :=
  ((g.find? (fun p => p.1 == n)).map Prod.snd).getD []

/-- The while-loop of `traverse_graph` (src/main.py 89-110): explicit-stack
depth-first traversal. The Lean stack keeps the Python stack's top at the
head, so `stack.pop()` is the head and `stack.extend(graph[node])` pushes
the reversed neighbor list. Returns the visit-ordered path and the final
visited set (the source mutates `visited` in place). -/
def traverseLoop (g : List (ℕ × List ℕ)) (visited : List ℕ) (stack : List ℕ) :
    List ℕ × List ℕ :=
  match stack with
  | [] => ([], visited)
  | node :: rest =>
    if h : node ∈ visited then traverseLoop g visited rest
    else
      let r := traverseLoop g (node :: visited) ((adjOf g node).reverse ++ rest)
      (node :: r.1, r.2)
termination_by (((keysOf g).toFinset \ visited.toFinset).card, stack.length)
decreasing_by
  · apply Prod.Lex.right
    simp
  · by_cases hk : node ∈ keysOf g
    · apply Prod.Lex.left
      apply Finset.card_lt_card
      have hsub : (keysOf g).toFinset \ (node :: visited).toFinset ⊆
          (keysOf g).toFinset \ visited.toFinset := by
        apply Finset.sdiff_subset_sdiff (Finset.Subset.refl _)
        simp only [List.toFinset_cons]
        exact Finset.subset_insert _ _
      rw [Finset.ssubset_iff_of_subset hsub]
      refine ⟨node, ?_, ?_⟩
      · rw [Finset.mem_sdiff]
        exact ⟨List.mem_toFinset.mpr hk, fun hc => h (List.mem_toFinset.mp hc)⟩
      · simp
    · have hadj : adjOf g node = [] := by
        rw [adjOf, List.find?_eq_none.mpr]
        · rfl
        · intro p hp
          simp only [beq_iff_eq]
          intro hc
          apply hk
          have hmm := List.mem_map_of_mem Prod.fst hp
          rw [hc] at hmm
          exact hmm
      have hcard : (keysOf g).toFinset \ (node :: visited).toFinset =
          (keysOf g).toFinset \ visited.toFinset := by
        ext x
        simp only [Finset.mem_sdiff, List.toFinset_cons, Finset.mem_insert,
          List.mem_toFinset]
        constructor
        · rintro ⟨hx, hnx⟩
          exact ⟨hx, fun hc => hnx (Or.inr hc)⟩
        · rintro ⟨hx, hnx⟩
          refine ⟨hx, ?_⟩
          rintro (rfl | hc)
          · exact hk hx
          · exact hnx hc
      rw [hcard, hadj]
      apply Prod.Lex.right
      simp

/-- `traverse_graph` (src/main.py 89-110): run the stack loop from the
start node. -/
def traverse_graph (g : List (ℕ × List ℕ)) (visited : List ℕ) (current : ℕ) :
    List ℕ × List ℕ :=
  traverseLoop g visited [current]

/-- Loop body of `get_paths_from_graph`: skip an already-visited key, else
append the depth-first traversal from it and thread the visited set. -/
def pathsStep (g : List (ℕ × List ℕ)) (acc : List (List ℕ) × List ℕ) (key : ℕ) :
    List (List ℕ) × List ℕ :=
  if key ∈ acc.2 then acc
  else (acc.1 ++ [(traverse_graph g acc.2 key).1], (traverse_graph g acc.2 key).2)

/-- `get_paths_from_graph` (src/main.py 112-127): pick each not-yet-visited
key in insertion order and record its depth-first traversal, threading the
shared visited set. -/
def get_paths_from_graph (g : List (ℕ × List ℕ)) : List (List ℕ) :=
  ((keysOf g).foldl (pathsStep g) ([], [])).1

/-- `uv_edges.get(edge, 0)`: current incidence count of an edge key. -/
def dictGetNat (d : List ((ℕ × ℕ) × ℕ)) (k : ℕ × ℕ) : ℕ :=
  ((d.find? (fun p => p.1 == k)).map Prod.snd).getD 0

/-- `get_border_edges` (src/main.py 186-199): keep the edge keys whose
incidence count is exactly 1, build the adjacency graph and extract the
paths. -/
def get_border_edges (uv_edges : List ((ℕ × ℕ) × ℕ)) : List (List ℕ) :=
  get_paths_from_graph (build_graph ((uv_edges.filter (fun p => p.2 == 1)).map Prod.fst))

/-- The four paint styles configured in src/settings.py 23-47. -/
inductive PaintStyle : Type
  | frontFacing
  | backFacing
  | internalEdges
  | borderEdges
  deriving DecidableEq

/-- One draw request issued against a tile's canvas. The rasterizer-side
point scaling (`uv * size`, v-flip) of src/main.py 141-144/163-166 is out
of scope (spec §2); requests carry the UV-space points. -/
structure DrawReq : Type where
  udim : ℤ
  pts : List (ℚ × ℚ)
  style : PaintStyle
  deriving DecidableEq

/-- `draw_polygon` (src/main.py 129-148): a filled-polygon draw styled by
the winding classifier, followed by an internal-edge stroke. -/
def draw_polygon (udim : ℤ) (polygon : List (ℚ × ℚ)) : List DrawReq :=
  [⟨udim, polygon, if is_front_facing polygon then .frontFacing else .backFacing⟩,
   ⟨udim, polygon, .internalEdges⟩]

/-- `draw_border_edges` (src/main.py 150-169): a closed border stroke
through the positions of the path's indices. -/
def draw_border_edges (udim : ℤ) (path : List ℕ) (uv_positions : List (ℚ × ℚ)) :
    List DrawReq :=
  [⟨udim, path.map (fun idx => uv_positions.getD idx (0, 0)), .borderEdges⟩]

/-- Orchestrator state: the keys of `skia_surfaces` in creation order and
the stream of issued draw requests. -/
structure OrchState : Type where
  surfaces : List ℤ
  draws : List DrawReq
  deriving DecidableEq

/-- Loop body of the route-polygons step (src/main.py 239-246): resolve the
polygon's tile, create the canvas entry when the key — including the
sentinel -1 — is new, and issue the two polygon draw requests only for a
valid tile. -/
def route_polygon (s : OrchState) (polygon : List (ℚ × ℚ)) : OrchState :=
  let udim := get_udim_from_uvs polygon
  let surfaces := if udim ∈ s.surfaces then s.surfaces else s.surfaces ++ [udim]
  if udim ≠ -1 then ⟨surfaces, s.draws ++ draw_polygon udim polygon⟩
  else ⟨surfaces, s.draws⟩

/-- The route-polygons loop (src/main.py 239-246). -/
def route_polygons (s : OrchState) (polygons : List (List (ℚ × ℚ))) : OrchState :=
  polygons.foldl route_polygon s

/-- Loop body of the route-boundaries step (src/main.py 248-252): resolve
the loop's tile from its member positions and issue a border stroke for a
valid tile. -/
def route_border (uv_positions : List (ℚ × ℚ)) (s : OrchState) (border : List ℕ) :
    OrchState :=
  let udim := get_udim_from_uvs (border.map (fun idx => uv_positions.getD idx (0, 0)))
  if udim ≠ -1 then ⟨s.surfaces, s.draws ++ draw_border_edges udim border uv_positions⟩
  else s

/-- The three arrays read from one mesh primitive with a present UV
primvar (src/main.py 216-225). -/
structure MeshUV : Type where
  uv_positions : List (ℚ × ℚ)
  face_vert_count : List ℕ
  uv_indicies : List ℕ

/-- The per-face accumulation loop (src/main.py 227-235): slice each face's
UV indices at the running offset, collect its polygon, and bump the
incidence count of each of its edge keys. -/
def process_mesh (m : MeshUV) : List (List (ℚ × ℚ)) × List ((ℕ × ℕ) × ℕ) :=
  (m.face_vert_count.foldl
    (fun (acc : (List (List (ℚ × ℚ)) × List ((ℕ × ℕ) × ℕ)) × ℕ) count =>
      let face_uvs := (m.uv_indicies.drop acc.2).take count
      let edges := get_uv_edges_from_face face_uvs m.uv_positions
      let polygon := face_uvs.map (fun i => m.uv_positions.getD i (0, 0))
      ((acc.1.1 ++ [polygon],
        (edges.map Prod.fst).foldl (fun d e => dictSet d e (dictGetNat d e + 1)) acc.1.2),
       acc.2 + count))
    (([], []), 0)).1

/-- Body of the per-primitive loop of `main` (src/main.py 214-252). A mesh
whose UV primvar is absent (`none`, the falsy `uv_prim_vars`) contributes
nothing; otherwise its polygons and boundary loops are routed. -/
def process_prim (s : OrchState) (prim : Option MeshUV) : OrchState :=
  match prim with
  | none => s
  | some m =>
    let pe := process_mesh m
    let border_edges := get_border_edges pe.2
    border_edges.foldl (route_border m.uv_positions) (route_polygons s pe.1)

/-- The per-primitive loop of `main` over the traversed mesh prims. -/
def main_loop (prims : List (Option MeshUV)) : OrchState :=
  prims.foldl process_prim ⟨[], []⟩

/-- Python `str.split(sep)` for a one-character separator. -/
def pySplit (sep : Char) : List Char → List (List Char)
  | [] => [[]]
  | c :: rest =>
    match pySplit sep rest with
    | [] => [[]]
    | cur :: parts => if c = sep then [] :: cur :: parts else (c :: cur) :: parts

/-- The finalize step's file naming (src/main.py 255-258):
`start, end = output_path.split('#')` then `f"{start}{surface}{end}"`.
A split without exactly two parts makes the unpacking raise `ValueError`,
modelled as `none`. -/
def output_file_name (output_path : List Char) (tile : ℤ) : Option (List Char) :=
  match pySplit (Char.ofNat 35) output_path with
  | [s, e] => some (s ++ (toString tile).toList ++ e)
  | _ => none

/-- The endpoints of a boundary-edge list (the nodes of its graph). -/
def endpoints (edges : List (ℕ × ℕ)) : List ℕ :=
  edges.foldr (fun e acc => e.1 :: e.2 :: acc) []

/-- Undirected adjacency induced by an edge list. -/
def adjRel (edges : List (ℕ × ℕ)) (a b : ℕ) : Prop :=
  (a, b) ∈ edges ∨ (b, a) ∈ edges

/-- Connectivity: the reflexive-transitive closure of the undirected
adjacency. -/
def reaches (edges : List (ℕ × ℕ)) : ℕ → ℕ → Prop :=
  Relation.ReflTransGen (adjRel edges)

/-- One step of adjacency inside a built graph: `b` occurs in the neighbor
list of `a`. -/
def gAdj (g : List (ℕ × List ℕ)) (a b : ℕ) : Prop := b ∈ adjOf g a

/-- Reachability inside a built graph. -/
def gReach (g : List (ℕ × List ℕ)) : ℕ → ℕ → Prop :=
  Relation.ReflTransGen (gAdj g)

open Classical in
/-- The connected component of a node: the endpoints reachable from it. -/
noncomputable def component (edges : List (ℕ × ℕ)) (n : ℕ) : Finset ℕ :=
  (endpoints edges).toFinset.filter (fun m => reaches edges n m)

/-- The number of connected components of the boundary-edge graph: the
number of distinct reachability classes among the endpoints. -/
noncomputable def numComponents (edges : List (ℕ × ℕ)) : ℕ :=
  ((endpoints edges).toFinset.image (component edges)).card

/-- The invariant threaded through the key loop of `get_paths_from_graph`:
the visited set is exactly the union of the collected paths, it is closed
under adjacency, the paths are duplicate-free and pairwise disjoint, each
path is the set of nodes reachable from some key, and every visited node
is a key. -/
def pathsInv (g : List (ℕ × List ℕ)) (acc : List (List ℕ) × List ℕ) : Prop :=
  (∀ n, n ∈ acc.2 ↔ ∃ p ∈ acc.1, n ∈ p) ∧
  (∀ a ∈ acc.2, ∀ b ∈ adjOf g a, b ∈ acc.2) ∧
  (∀ p ∈ acc.1, p.Nodup) ∧
  acc.1.Pairwise List.Disjoint ∧
  (∀ p ∈ acc.1, ∃ k ∈ keysOf g, ∀ n, n ∈ p ↔ gReach g k n) ∧
  (∀ n ∈ acc.2, n ∈ keysOf g)

/-- Truncation toward zero agrees with the floor on nonnegative input. -/
theorem pyInt_of_nonneg {q : ℚ} (h : 0 ≤ q) : pyInt q = ⌊q⌋ := by
  simp [pyInt, not_lt.mpr h]

/-- C2: `get_udim_from_uv` returns the sentinel -1 exactly when
`u < 0 ∨ u > 10 ∨ v < 0`, and otherwise returns `1001 + ⌊v⌋*10 + ⌊u⌋`;
moreover `(0.5,0.5) ↦ 1001`, `(1.5,0.5) ↦ 1002`, `(0.5,1.5) ↦ 1011`,
`(-0.1,0) ↦ -1`, `(10.5,0) ↦ -1`, and `u = 10` is in range. -/
theorem get_udim_from_uv_spec :
    (∀ u v : ℚ, get_udim_from_uv u v = -1 ↔ (u < 0 ∨ u > 10 ∨ v < 0)) ∧
    (∀ u v : ℚ, ¬(u < 0 ∨ u > 10 ∨ v < 0) →
      get_udim_from_uv u v = 1001 + ⌊v⌋ * 10 + ⌊u⌋) ∧
    get_udim_from_uv (1/2) (1/2) = 1001 ∧
    get_udim_from_uv (3/2) (1/2) = 1002 ∧
    get_udim_from_uv (1/2) (3/2) = 1011 ∧
    get_udim_from_uv (-1/10) 0 = -1 ∧
    get_udim_from_uv (21/2) 0 = -1 ∧
    get_udim_from_uv 10 0 ≠ -1 := by
  have hval : ∀ u v : ℚ, ¬(u < 0 ∨ u > 10 ∨ v < 0) →
      get_udim_from_uv u v = 1001 + ⌊v⌋ * 10 + ⌊u⌋ := by
    intro u v h
    push_neg at h
    rw [get_udim_from_uv, if_neg]
    · rw [pyInt_of_nonneg h.1, pyInt_of_nonneg h.2.2]
    · push_neg
      exact h
  refine ⟨?_, hval, by norm_num [get_udim_from_uv, pyInt],
    by norm_num [get_udim_from_uv, pyInt], by norm_num [get_udim_from_uv, pyInt],
    by norm_num [get_udim_from_uv, pyInt], by norm_num [get_udim_from_uv, pyInt],
    by norm_num [get_udim_from_uv, pyInt]⟩
  intro u v
  constructor
  · intro h
    by_contra hc
    rw [hval u v hc] at h
    push_neg at hc
    have hu : (0:ℤ) ≤ ⌊u⌋ := Int.floor_nonneg.mpr hc.1
    have hv : (0:ℤ) ≤ ⌊v⌋ := Int.floor_nonneg.mpr hc.2.2
    omega
  · intro h
    simp [get_udim_from_uv, h]

/-- C2 witness: the in-range branch evaluated at `(u, v) = (2, 3)`. -/
theorem get_udim_from_uv_spec_witness :
    get_udim_from_uv 2 3 = 1001 + ⌊(3:ℚ)⌋ * 10 + ⌊(2:ℚ)⌋ :=
  get_udim_from_uv_spec.2.1 2 3 (by norm_num)

/-- C10: on the empty coordinate list the tile set is empty, hence not a
singleton, and `get_udim_from_uvs` returns -1 rather than failing. -/
theorem get_udim_from_uvs_nil : get_udim_from_uvs [] = -1 := rfl

/-- C4: `get_udim_from_uvs` returns the unique element of the tile set when
that set is a singleton and -1 otherwise; an all-1001 polygon maps to 1001,
and one 1002 vertex among 1001 vertices forces -1. -/
theorem get_udim_from_uvs_spec :
    (∀ (uvs : List (ℚ × ℚ)) (t : ℤ),
      (uvs.map (fun p => get_udim_from_uv p.1 p.2)).toFinset = {t} →
      get_udim_from_uvs uvs = t) ∧
    (∀ uvs : List (ℚ × ℚ),
      (¬∃ t : ℤ, (uvs.map (fun p => get_udim_from_uv p.1 p.2)).toFinset = {t}) →
      get_udim_from_uvs uvs = -1) ∧
    get_udim_from_uvs [(1/5, 1/5), (1/2, 1/2), (1/5, 4/5)] = 1001 ∧
    get_udim_from_uvs [(6/5, 1/2), (1/5, 1/2), (1/5, 4/5)] = -1 := by
  have single : ∀ (m : List ℤ) (t : ℤ), m.Nodup → (∀ x, x ∈ m ↔ x = t) → m = [t] := by
    intro m t hnd hmem
    match m with
    | [] =>
      exact absurd ((hmem t).mpr rfl) (by simp)
    | x :: rest =>
      have hx : x = t := (hmem x).mp (by simp)
      subst hx
      have hrest : rest = [] := by
        rw [List.eq_nil_iff_forall_not_mem]
        intro y hy
        have : y = x := (hmem y).mp (by simp [hy])
        subst this
        exact (List.nodup_cons.mp hnd).1 hy
      rw [hrest]
  have key : ∀ (l : List ℤ) (t : ℤ), l.toFinset = {t} → l.dedup = [t] := by
    intro l t h
    refine single _ t l.nodup_dedup ?_
    intro x
    rw [List.mem_dedup]
    constructor
    · intro hx
      have hx' : x ∈ l.toFinset := List.mem_toFinset.mpr hx
      rw [h] at hx'
      simpa using hx'
    · rintro rfl
      rw [← List.mem_toFinset, h]
      simp
  have h1 : get_udim_from_uv (1/5) (1/5) = 1001 := by norm_num [get_udim_from_uv, pyInt]
  have h2 : get_udim_from_uv (1/2) (1/2) = 1001 := by norm_num [get_udim_from_uv, pyInt]
  have h3 : get_udim_from_uv (1/5) (4/5) = 1001 := by norm_num [get_udim_from_uv, pyInt]
  have h4 : get_udim_from_uv (6/5) (1/2) = 1002 := by norm_num [get_udim_from_uv, pyInt]
  have h5 : get_udim_from_uv (1/5) (1/2) = 1001 := by norm_num [get_udim_from_uv, pyInt]
  refine ⟨?_, ?_, ?_, ?_⟩
  · intro uvs t h
    rw [get_udim_from_uvs, key _ t h]
  · intro uvs h
    rw [get_udim_from_uvs]
    rcases hd : (uvs.map (fun p => get_udim_from_uv p.1 p.2)).dedup with _ | ⟨x, _ | ⟨y, l⟩⟩
    · simp only [hd]
    · exfalso
      apply h
      refine ⟨x, ?_⟩
      ext z
      rw [List.mem_toFinset, Finset.mem_singleton, ← List.mem_dedup, hd, List.mem_singleton]
    · simp only [hd]
  · rw [get_udim_from_uvs]
    simp only [List.map_cons, List.map_nil, h1, h2, h3]
    rfl
  · rw [get_udim_from_uvs]
    simp only [List.map_cons, List.map_nil, h4, h5, h3]
    rfl

/-- C4 witness: the singleton branch evaluated on a concrete polygon. -/
theorem get_udim_from_uvs_spec_witness :
    get_udim_from_uvs [(1/2, 1/2), (1/4, 1/4)] = 1001 := by
  have h2 : get_udim_from_uv (1/2) (1/2) = 1001 := by norm_num [get_udim_from_uv, pyInt]
  have h6 : get_udim_from_uv (1/4) (1/4) = 1001 := by norm_num [get_udim_from_uv, pyInt]
  refine get_udim_from_uvs_spec.1 [(1/2, 1/2), (1/4, 1/4)] 1001 ?_
  ext z
  simp only [List.map_cons, List.map_nil, h2, h6]
  simp

/-- Swapping the two endpoints of a trapezoid term negates it. -/
theorem trap_swap (a b : ℚ × ℚ) : trap b a = -trap a b := by
  simp only [trap]
  ring

/-- Appending a final vertex adds one trapezoid term from the last vertex. -/
theorem polylineArea_append_last :
    ∀ (l : List (ℚ × ℚ)) (t x : ℚ × ℚ), l.getLast? = some t →
      polylineArea (l ++ [x]) = polylineArea l + trap t x
  | [], t, x, h => by simp at h
  | [a], t, x, h => by
    simp only [List.getLast?_singleton, Option.some.injEq] at h
    subst h
    simp [polylineArea]
  | a :: b :: rest, t, x, h => by
    have h' : (b :: rest).getLast? = some t := by
      rwa [List.getLast?_cons_cons] at h
    have ih := polylineArea_append_last (b :: rest) t x h'
    simp only [List.cons_append] at ih ⊢
    rw [polylineArea, polylineArea, ih]
    ring

/-- Reversing an open polyline negates its trapezoid sum. -/
theorem polylineArea_reverse :
    ∀ l : List (ℚ × ℚ), polylineArea l.reverse = -polylineArea l
  | [] => by simp [polylineArea]
  | [a] => by simp [polylineArea]
  | a :: b :: l' => by
    have ih := polylineArea_reverse (b :: l')
    have hlast : (b :: l').reverse.getLast? = some b := by
      rw [List.getLast?_reverse]
      rfl
    have hrv : (a :: b :: l').reverse = (b :: l').reverse ++ [a] := by simp
    rw [hrv, polylineArea_append_last _ b a hlast, ih, polylineArea, trap_swap]
    ring

/-- Reversing a closed polygon negates its signed area. -/
theorem signedArea_reverse (p : List (ℚ × ℚ)) :
    signedArea p.reverse = -signedArea p := by
  match p with
  | [] => simp [signedArea]
  | x :: xs =>
    rcases hr : (x :: xs).reverse with _ | ⟨y, ys⟩
    · exact absurd hr (by simp)
    · have hlasty : (x :: xs).getLast? = some y := by
        rw [List.getLast?_eq_head?_reverse, hr]
        rfl
      have hrevlast : (x :: xs).reverse.getLast? = some x := by
        rw [List.getLast?_reverse]
        rfl
      rw [hr] at hrevlast
      have lhs : signedArea (y :: ys) = polylineArea ((y :: ys) ++ [y]) := rfl
      have rhs : signedArea (x :: xs) = polylineArea ((x :: xs) ++ [x]) := rfl
      rw [lhs, rhs,
        polylineArea_append_last (y :: ys) x y hrevlast,
        polylineArea_append_last (x :: xs) y x hlasty]
      rw [← hr, polylineArea_reverse (x :: xs), trap_swap]
      ring

/-- The open-polyline trapezoid sum as a sum over positions. -/
theorem polylineArea_eq_sum (d : ℚ × ℚ) :
    ∀ p : List (ℚ × ℚ), polylineArea p =
      ∑ i in Finset.range (p.length - 1), trap (p.getD i d) (p.getD (i + 1) d)
  | [] => by simp [polylineArea]
  | [a] => by simp [polylineArea]
  | a :: b :: rest => by
    have ih := polylineArea_eq_sum d (b :: rest)
    rw [polylineArea, ih]
    have hlen : (a :: b :: rest).length - 1 = ((b :: rest).length - 1) + 1 := by
      simp
    rw [hlen, Finset.sum_range_succ']
    simp only [List.getD_cons_succ, List.getD_cons_zero]
    ring

/-- The index-based wrap-around fold of `is_front_facing` computes the
closed-polygon signed area. -/
theorem foldArea_eq_signedArea (p : List (ℚ × ℚ)) :
    ((List.range p.length).foldl
      (fun area i =>
        let p1 := p.getD i (0, 0)
        let p2 := p.getD ((i + 1) % p.length) (0, 0)
        area + (p2.1 - p1.1) * (p2.2 + p1.2)) 0) = signedArea p := by
  have fold_eq : ∀ (n : ℕ) (a : ℚ),
      ((List.range n).foldl
        (fun area i =>
          let p1 := p.getD i (0, 0)
          let p2 := p.getD ((i + 1) % p.length) (0, 0)
          area + (p2.1 - p1.1) * (p2.2 + p1.2)) a) =
      a + ∑ i in Finset.range n,
        trap (p.getD i (0, 0)) (p.getD ((i + 1) % p.length) (0, 0)) := by
    intro n
    induction n with
    | zero => intro a; simp
    | succ m ih =>
      intro a
      rw [List.range_succ, List.foldl_append, ih, Finset.sum_range_succ]
      simp only [List.foldl_cons, List.foldl_nil, trap]
      ring
  rw [fold_eq p.length 0, zero_add]
  match p with
  | [] => simp [signedArea]
  | x :: xs =>
    have hlen : (x :: xs).length = xs.length + 1 := rfl
    rw [signedArea]
    rw [polylineArea_eq_sum (0, 0) ((x :: xs) ++ [x])]
    have hlen2 : ((x :: xs) ++ [x]).length - 1 = xs.length + 1 := by simp
    rw [hlen2, hlen]
    rw [Finset.sum_range_succ, Finset.sum_range_succ]
    have hmain : ∀ i ∈ Finset.range xs.length,
        trap ((x :: xs).getD i (0, 0))
          ((x :: xs).getD ((i + 1) % (xs.length + 1)) (0, 0)) =
        trap (((x :: xs) ++ [x]).getD i (0, 0)) (((x :: xs) ++ [x]).getD (i + 1) (0, 0)) := by
      intro i hi
      rw [Finset.mem_range] at hi
      have h1 : (i + 1) % (xs.length + 1) = i + 1 := Nat.mod_eq_of_lt (by omega)
      rw [h1, List.getD_append _ _ _ _ (by simp; omega),
        List.getD_append _ _ _ _ (by simp; omega)]
    rw [Finset.sum_congr rfl hmain]
    have hwrap : (xs.length + 1) % (xs.length + 1) = 0 := Nat.mod_self _
    rw [hwrap]
    have hl1 : ((x :: xs) ++ [x]).getD xs.length (0, 0) = (x :: xs).getD xs.length (0, 0) := by
      rw [List.getD_append _ _ _ _ (by simp)]
    have hl2 : ((x :: xs) ++ [x]).getD (xs.length + 1) (0, 0) = x := by
      rw [List.getD_append_right _ _ _ _ (by simp)]
      simp
    have hl3 : (x :: xs).getD 0 (0, 0) = x := rfl
    rw [hl1, hl2, hl3]

/-- C3: `is_front_facing` is true exactly when the trapezoid-shoelace
signed area (consecutive pairs with wrap-around) is strictly negative;
hence every zero-area polygon classifies as back-facing. -/
theorem is_front_facing_spec :
    (∀ p : List (ℚ × ℚ), is_front_facing p = true ↔ signedArea p < 0) ∧
    (∀ p : List (ℚ × ℚ), signedArea p = 0 → is_front_facing p = false) := by
  have hiff : ∀ p : List (ℚ × ℚ), is_front_facing p = true ↔ signedArea p < 0 := by
    intro p
    rw [is_front_facing, foldArea_eq_signedArea p]
    simp
  refine ⟨hiff, ?_⟩
  intro p h
  rw [← Bool.not_eq_true, hiff, h]
  simp

/-- C3 witness: the zero-area branch at a degenerate one-point polygon. -/
theorem is_front_facing_spec_witness :
    is_front_facing [((0 : ℚ), (0 : ℚ))] = false :=
  is_front_facing_spec.2 [((0 : ℚ), (0 : ℚ))] (by simp [signedArea, polylineArea, trap])

/-- C9: reversing the vertex order flips `is_front_facing` whenever the
signed area is nonzero (simple non-degenerate polygons have nonzero
signed area, so this covers every simple closed non-self-intersecting
polygon). -/
theorem is_front_facing_reverse (p : List (ℚ × ℚ)) (h : signedArea p ≠ 0) :
    is_front_facing p.reverse = !is_front_facing p := by
  have hiff := fun q => (is_front_facing_spec.1 q)
  rcases lt_trichotomy (signedArea p) 0 with hlt | heq | hgt
  · have h1 : is_front_facing p = true := (hiff p).mpr hlt
    have h2 : is_front_facing p.reverse = false := by
      rw [← Bool.not_eq_true, hiff p.reverse, signedArea_reverse]
      push_neg
      linarith
    rw [h1, h2]
    rfl
  · exact absurd heq h
  · have h1 : is_front_facing p = false := by
      rw [← Bool.not_eq_true, hiff p]
      push_neg
      linarith
    have h2 : is_front_facing p.reverse = true := by
      rw [hiff p.reverse, signedArea_reverse]
      linarith
    rw [h1, h2]
    rfl

/-- C9 witness: a concrete counter-clockwise triangle and its reversal. -/
theorem is_front_facing_reverse_witness :
    is_front_facing ([(0, 0), (1, 0), (0, 1)] : List (ℚ × ℚ)).reverse =
      !is_front_facing ([(0, 0), (1, 0), (0, 1)] : List (ℚ × ℚ)) :=
  is_front_facing_reverse [(0, 0), (1, 0), (0, 1)]
    (by norm_num [signedArea, polylineArea, trap])

/-- `dictSet` keeps the length when the key is present and adds one entry
otherwise. -/
theorem dictSet_length {α β : Type} [DecidableEq α] :
    ∀ (d : List (α × β)) (k : α) (v : β),
      (dictSet d k v).length =
        if k ∈ d.map Prod.fst then d.length else d.length + 1
  | [], k, v => by simp [dictSet]
  | (k', v') :: rest, k, v => by
    by_cases hk : k' = k
    · subst hk
      simp [dictSet]
    · rw [dictSet, if_neg hk]
      simp only [List.length_cons, List.map_cons, List.mem_cons,
        dictSet_length rest k v]
      have : ¬k = k' := fun h => hk h.symm
      by_cases hm : k ∈ rest.map Prod.fst <;> simp [hm, this]

/-- Membership in the key list after a `dictSet`. -/
theorem dictSet_keys_mem {α β : Type} [DecidableEq α] :
    ∀ (d : List (α × β)) (k : α) (v : β) (m : α),
      (m ∈ (dictSet d k v).map Prod.fst ↔ m ∈ d.map Prod.fst ∨ m = k)
  | [], k, v, m => by simp [dictSet]
  | (k', v') :: rest, k, v, m => by
    by_cases hk : k' = k
    · subst hk
      simp [dictSet]
      tauto
    · rw [dictSet, if_neg hk]
      simp only [List.map_cons, List.mem_cons, dictSet_keys_mem rest k v m]
      tauto

/-- Folding `dictSet` over indices with pairwise-distinct fresh keys grows
the dict by exactly one entry per index. -/
theorem foldl_dictSet_length_nodup {α β : Type} [DecidableEq α]
    (keyFn : ℕ → α) (valFn : ℕ → β) :
    ∀ (l : List ℕ) (d : List (α × β)),
      (l.map keyFn).Nodup → (∀ i ∈ l, keyFn i ∉ d.map Prod.fst) →
      (l.foldl (fun d i => dictSet d (keyFn i) (valFn i)) d).length =
        d.length + l.length
  | [], d, _, _ => by simp
  | i :: rest, d, hnd, hfresh => by
    rw [List.foldl_cons]
    have hfresh_i : keyFn i ∉ d.map Prod.fst := hfresh i (by simp)
    have hrest : ∀ j ∈ rest, keyFn j ∉ (dictSet d (keyFn i) (valFn i)).map Prod.fst := by
      intro j hj
      rw [dictSet_keys_mem]
      push_neg
      refine ⟨hfresh j (by simp [hj]), ?_⟩
      intro hji
      have : keyFn i ∈ rest.map keyFn := by
        rw [← hji]
        exact List.mem_map_of_mem keyFn hj
      rw [List.map_cons, List.nodup_cons] at hnd
      exact hnd.1 this
    have hndrest : (rest.map keyFn).Nodup := by
      rw [List.map_cons, List.nodup_cons] at hnd
      exact hnd.2
    rw [foldl_dictSet_length_nodup keyFn valFn rest _ hndrest hrest,
      dictSet_length, if_neg hfresh_i]
    simp
    omega

/-- Folding `dictSet` adds at most one entry per index. -/
theorem foldl_dictSet_length_le {α β : Type} [DecidableEq α]
    (keyFn : ℕ → α) (valFn : ℕ → β) :
    ∀ (l : List ℕ) (d : List (α × β)),
      (l.foldl (fun d i => dictSet d (keyFn i) (valFn i)) d).length ≤
        d.length + l.length
  | [], d => by simp
  | i :: rest, d => by
    rw [List.foldl_cons]
    refine le_trans (foldl_dictSet_length_le keyFn valFn rest _) ?_
    rw [dictSet_length]
    by_cases hm : keyFn i ∈ d.map Prod.fst <;> simp [hm] <;> omega

/-- `canonPair` identifies exactly the two orderings of an unordered pair. -/
theorem canonPair_eq (a b c d : ℕ) (h : canonPair a b = canonPair c d) :
    (a = c ∧ b = d) ∨ (a = d ∧ b = c) := by
  simp only [canonPair] at h
  split at h <;> split at h <;>
    simp only [Prod.mk.injEq] at h <;> omega

/-- On a face of at least three pairwise-distinct vertex indices, the
canonical consecutive edge keys are pairwise distinct. -/
theorem edgeKey_inj (f : List ℕ) (hnd : f.Nodup) (h3 : 3 ≤ f.length) :
    ∀ i ∈ List.range f.length, ∀ j ∈ List.range f.length,
      edgeKey f i = edgeKey f j → i = j := by
  intro i hi j hj hk
  rw [List.mem_range] at hi hj
  have hn : 0 < f.length := by omega
  have hgi : ∀ x, x < f.length → ∀ y, y < f.length →
      f.getD x 0 = f.getD y 0 → x = y := by
    intro x hx y hy hxy
    rw [List.getD_eq_getElem f 0 hx, List.getD_eq_getElem f 0 hy] at hxy
    exact (hnd.getElem_inj_iff).mp hxy
  have hsi : (i + 1) % f.length = if i + 1 = f.length then 0 else i + 1 := by
    split
    · rename_i h
      rw [h, Nat.mod_self]
    · exact Nat.mod_eq_of_lt (by omega)
  have hsj : (j + 1) % f.length = if j + 1 = f.length then 0 else j + 1 := by
    split
    · rename_i h
      rw [h, Nat.mod_self]
    · exact Nat.mod_eq_of_lt (by omega)
  have hsi_lt : (i + 1) % f.length < f.length := Nat.mod_lt _ hn
  have hsj_lt : (j + 1) % f.length < f.length := Nat.mod_lt _ hn
  rcases canonPair_eq _ _ _ _ hk with ⟨e1, e2⟩ | ⟨e1, e2⟩
  · exact hgi i hi j hj e1
  · have hij : i = (j + 1) % f.length := hgi i hi _ hsj_lt e1
    have hji : (i + 1) % f.length = j := hgi _ hsi_lt j hj e2
    rw [hsi] at hji
    rw [hsj] at hij
    split at hji <;> split at hij <;> omega

/-- C5 (amended): the edge map of a face with `N ≥ 3` pairwise-distinct
vertex indices has exactly `N` entries; in general it has at most `N`
entries (consecutive pairs whose canonical keys collide are merged); a
degenerate face with fewer than two vertices yields zero or one entry, and
every input is handled totally (no error). -/
theorem get_uv_edges_from_face_count :
    (∀ (f : List ℕ) (pos : List (ℚ × ℚ)), f.Nodup → 3 ≤ f.length →
      (get_uv_edges_from_face f pos).length = f.length) ∧
    (∀ (f : List ℕ) (pos : List (ℚ × ℚ)),
      (get_uv_edges_from_face f pos).length ≤ f.length) ∧
    (∀ pos : List (ℚ × ℚ), (get_uv_edges_from_face [] pos).length = 0) ∧
    (∀ (a : ℕ) (pos : List (ℚ × ℚ)), (get_uv_edges_from_face [a] pos).length = 1) := by
  refine ⟨?_, ?_, ?_, ?_⟩
  · intro f pos hnd h3
    have hinj := edgeKey_inj f hnd h3
    have hkeys : ((List.range f.length).map (edgeKey f)).Nodup :=
      List.Nodup.map_on hinj (List.nodup_range _)
    have := foldl_dictSet_length_nodup (edgeKey f)
      (fun i => (pos.getD (edgeKey f i).1 (0, 0), pos.getD (edgeKey f i).2 (0, 0)))
      (List.range f.length) [] hkeys (by simp)
    simpa [get_uv_edges_from_face] using this
  · intro f pos
    have := foldl_dictSet_length_le (edgeKey f)
      (fun i => (pos.getD (edgeKey f i).1 (0, 0), pos.getD (edgeKey f i).2 (0, 0)))
      (List.range f.length) []
    simpa [get_uv_edges_from_face] using this
  · intro pos
    rfl
  · intro a pos
    simp [get_uv_edges_from_face, List.range_succ, dictSet]

/-- C5 witness: a nondegenerate triangle face yields exactly 3 edges. -/
theorem get_uv_edges_from_face_count_witness :
    (get_uv_edges_from_face [0, 1, 2] [(0, 0), (1, 0), (0, 1)]).length = 3 :=
  get_uv_edges_from_face_count.1 [0, 1, 2] [(0, 0), (1, 0), (0, 1)]
    (by decide) (by decide)

/-- C5 counterexample: a two-vertex face emits one edge, not two — both
consecutive pairs `(0,1)` and `(1,0)` canonicalize to the same key. -/
theorem get_uv_edges_from_face_two_verts :
    (get_uv_edges_from_face [0, 1] [(0, 0), (1, 0)]).length = 1 ∧
    (get_uv_edges_from_face [0, 1] [(0, 0), (1, 0)]).length ≠ 2 := by
  have h : (get_uv_edges_from_face [0, 1] [(0, 0), (1, 0)]).length = 1 := by
    simp [get_uv_edges_from_face, List.range_succ, dictSet, edgeKey, canonPair]
  exact ⟨h, by rw [h]; omega⟩

/-- C8: a mesh primitive with an absent UV primvar contributes nothing —
no polygons, no boundary loops, no draw requests, no canvases — and the
remaining primitives are processed unchanged. -/
theorem process_prim_absent_uv :
    (∀ s : OrchState, process_prim s none = s) ∧
    (∀ (s : OrchState) (rest : List (Option MeshUV)),
      (none :: rest).foldl process_prim s = rest.foldl process_prim s) := by
  exact ⟨fun s => rfl, fun s rest => rfl⟩

/-- C6 counterexample: routing a single polygon whose UDIM resolves to the
sentinel -1 does change the tile-to-canvas mapping — a canvas entry is
created under the key -1 (src/main.py 241-243 run before the -1 check). -/
theorem route_polygon_sentinel_canvas :
    (route_polygons ⟨[], []⟩ [[(-1, 0)]]).surfaces = [-1] ∧
    (route_polygons ⟨[], []⟩ [[(-1, 0)]]).surfaces ≠ [] := by
  have hu : get_udim_from_uv (-1) 0 = -1 := by norm_num [get_udim_from_uv]
  have huvs : get_udim_from_uvs [((-1 : ℚ), (0 : ℚ))] = -1 := by
    rw [get_udim_from_uvs]
    simp only [List.map_cons, List.map_nil, hu]
    rfl
  have h : (route_polygons ⟨[], []⟩ [[(-1, 0)]]).surfaces = [-1] := by
    simp [route_polygons, route_polygon, huvs]
  exact ⟨h, by rw [h]; simp⟩

/-- C6 (amended): in the route-polygons step a polygon resolving to the
sentinel -1 contributes no draw request, but a canvas entry under the key
-1 is still created on its first occurrence; a polygon with a valid tile
has a canvas for that tile afterwards and appends exactly the
winding-styled filled-polygon request and the internal-edge stroke. -/
theorem route_polygon_spec :
    (∀ (s : OrchState) (polygon : List (ℚ × ℚ)), get_udim_from_uvs polygon = -1 →
      (route_polygon s polygon).draws = s.draws ∧
      (route_polygon s polygon).surfaces =
        (if -1 ∈ s.surfaces then s.surfaces else s.surfaces ++ [-1])) ∧
    (∀ (s : OrchState) (polygon : List (ℚ × ℚ)), get_udim_from_uvs polygon ≠ -1 →
      get_udim_from_uvs polygon ∈ (route_polygon s polygon).surfaces ∧
      (route_polygon s polygon).draws = s.draws ++
        [⟨get_udim_from_uvs polygon, polygon,
           if is_front_facing polygon then .frontFacing else .backFacing⟩,
         ⟨get_udim_from_uvs polygon, polygon, .internalEdges⟩]) := by
  constructor
  · intro s polygon h
    rw [route_polygon]
    simp only [h]
    simp
  · intro s polygon h
    constructor
    · rw [route_polygon]
      simp only [if_pos h]
      by_cases hm : get_udim_from_uvs polygon ∈ s.surfaces
      · simp [hm]
      · simp [hm]
    · rw [route_polygon]
      simp [if_pos h, draw_polygon]

/-- C6 witness: the valid-tile branch applied to a concrete polygon. -/
theorem route_polygon_spec_witness :
    get_udim_from_uvs [(1/2, 1/2)] ∈
      (route_polygon ⟨[], []⟩ [(1/2, 1/2)]).surfaces := by
  have hu : get_udim_from_uv (1/2) (1/2) = 1001 := by
    norm_num [get_udim_from_uv, pyInt]
  have huvs : get_udim_from_uvs [((1 : ℚ)/2, (1 : ℚ)/2)] = 1001 := by
    rw [get_udim_from_uvs]
    simp only [List.map_cons, List.map_nil, hu]
    rfl
  exact (route_polygon_spec.2 ⟨[], []⟩ [(1/2, 1/2)] (by rw [huvs]; decide)).1

/-- C7: with one substitution marker the tile id is inserted at the marker,
but the default marker-less output path makes the finalize step fail
(`ValueError` from unpacking a one-element split), rather than writing to
the fixed path. -/
theorem output_file_name_spec :
    output_file_name ("output.png".toList) 1001 = none ∧
    output_file_name ("out.#.png".toList) 1001 = some ("out.1001.png".toList) := by
  constructor
  · rfl
  · rfl

/-- Neighbor lists after a `dictAppend`: the appended key gains `v` at the
end, every other key is untouched. -/
theorem adjOf_dictAppend :
    ∀ (g : List (ℕ × List ℕ)) (k v n : ℕ),
      adjOf (dictAppend g k v) n = if n = k then adjOf g n ++ [v] else adjOf g n
  | [], k, v, n => by
    by_cases h : n = k
    · subst h
      simp [adjOf, dictAppend]
    · have hne : (k == n) = false := beq_eq_false_iff_ne.mpr (fun hc => h hc.symm)
      simp [adjOf, dictAppend, List.find?, hne, h]
  | (k', vs) :: rest, k, v, n => by
    by_cases hk : k' = k
    · subst hk
      by_cases hn : n = k'
      · subst hn
        simp [adjOf, dictAppend, List.find?]
      · rw [dictAppend, if_pos rfl]
        have hne : (k' == n) = false := by
          simp only [beq_eq_false_iff_ne]
          exact fun hc => hn hc.symm
        simp [adjOf, List.find?, hne, hn]
    · rw [dictAppend, if_neg hk]
      by_cases hn : n = k'
      · subst hn
        simp [adjOf, List.find?, hk]
      · have hne : (k' == n) = false := by
          simp only [beq_eq_false_iff_ne]
          exact fun hc => hn hc.symm
        have ih := adjOf_dictAppend rest k v n
        simp only [adjOf, List.find?, hne] at ih ⊢
        exact ih

/-- Keys after a `dictAppend`. -/
theorem keysOf_dictAppend :
    ∀ (g : List (ℕ × List ℕ)) (k v m : ℕ),
      (m ∈ keysOf (dictAppend g k v) ↔ m ∈ keysOf g ∨ m = k)
  | [], k, v, m => by simp [keysOf, dictAppend]
  | (k', vs) :: rest, k, v, m => by
    by_cases hk : k' = k
    · subst hk
      simp [keysOf, dictAppend]
      tauto
    · rw [dictAppend, if_neg hk]
      have ih := keysOf_dictAppend rest k v m
      simp only [keysOf, List.map_cons, List.mem_cons] at ih ⊢
      tauto

/-- Adjacency accumulated by the `build_graph` fold from any start state. -/
theorem adjOf_buildFold :
    ∀ (edges : List (ℕ × ℕ)) (g : List (ℕ × List ℕ)) (n b : ℕ),
      (b ∈ adjOf (edges.foldl (fun g e => dictAppend (dictAppend g e.1 e.2) e.2 e.1) g) n ↔
        b ∈ adjOf g n ∨ adjRel edges n b)
  | [], g, n, b => by simp [adjRel]
  | e :: es, g, n, b => by
    rw [List.foldl_cons]
    rw [adjOf_buildFold es _ n b]
    have hstep : b ∈ adjOf (dictAppend (dictAppend g e.1 e.2) e.2 e.1) n ↔
        b ∈ adjOf g n ∨ (n = e.1 ∧ b = e.2) ∨ (n = e.2 ∧ b = e.1) := by
      rw [adjOf_dictAppend, adjOf_dictAppend]
      by_cases h2 : n = e.2 <;> by_cases h1 : n = e.1
      · rw [if_pos h2, if_pos h1]
        simp only [List.mem_append, List.mem_singleton]
        tauto
      · rw [if_pos h2, if_neg h1]
        simp only [List.mem_append, List.mem_singleton]
        tauto
      · rw [if_neg h2, if_pos h1]
        simp only [List.mem_append, List.mem_singleton]
        tauto
      · rw [if_neg h2, if_neg h1]
        tauto
    rw [hstep]
    have hrel : adjRel (e :: es) n b ↔
        ((n = e.1 ∧ b = e.2) ∨ (n = e.2 ∧ b = e.1)) ∨ adjRel es n b := by
      simp only [adjRel, List.mem_cons, Prod.ext_iff]
      tauto
    rw [hrel]
    tauto

/-- Keys accumulated by the `build_graph` fold from any start state. -/
theorem keysOf_buildFold :
    ∀ (edges : List (ℕ × ℕ)) (g : List (ℕ × List ℕ)) (m : ℕ),
      (m ∈ keysOf (edges.foldl (fun g e => dictAppend (dictAppend g e.1 e.2) e.2 e.1) g) ↔
        m ∈ keysOf g ∨ m ∈ endpoints edges)
  | [], g, m => by simp [endpoints]
  | e :: es, g, m => by
    rw [List.foldl_cons]
    rw [keysOf_buildFold es _ m]
    rw [keysOf_dictAppend, keysOf_dictAppend]
    have hend : m ∈ endpoints (e :: es) ↔ m = e.1 ∨ m = e.2 ∨ m ∈ endpoints es := by
      show m ∈ e.1 :: e.2 :: endpoints es ↔ _
      simp
    rw [hend]
    tauto

/-- The adjacency of the built graph is exactly the undirected edge
relation. -/
theorem mem_adjOf_build (edges : List (ℕ × ℕ)) (n b : ℕ) :
    b ∈ adjOf (build_graph edges) n ↔ adjRel edges n b := by
  rw [build_graph, adjOf_buildFold edges [] n b]
  simp [adjOf]

/-- The keys of the built graph are exactly the edge endpoints. -/
theorem mem_keysOf_build (edges : List (ℕ × ℕ)) (m : ℕ) :
    m ∈ keysOf (build_graph edges) ↔ m ∈ endpoints edges := by
  rw [build_graph, keysOf_buildFold edges [] m]
  simp [keysOf]

/-- The built graph's adjacency is symmetric. -/
theorem gAdj_build_symm (edges : List (ℕ × ℕ)) {a b : ℕ}
    (h : gAdj (build_graph edges) a b) : gAdj (build_graph edges) b a := by
  rw [gAdj, mem_adjOf_build] at h ⊢
  rw [adjRel] at h ⊢
  tauto

/-- Both endpoints of any adjacency of the built graph are keys. -/
theorem gAdj_build_keys (edges : List (ℕ × ℕ)) {a b : ℕ}
    (h : gAdj (build_graph edges) a b) :
    a ∈ keysOf (build_graph edges) ∧ b ∈ keysOf (build_graph edges) := by
  rw [gAdj, mem_adjOf_build] at h
  rw [mem_keysOf_build, mem_keysOf_build]
  have hmm : ∀ (es : List (ℕ × ℕ)) (x y : ℕ), (x, y) ∈ es →
      x ∈ endpoints es ∧ y ∈ endpoints es := by
    intro es
    induction es with
    | nil => intro x y h; simp at h
    | cons e es ih =>
      intro x y h
      have hshow : endpoints (e :: es) = e.1 :: e.2 :: endpoints es := rfl
      rw [List.mem_cons] at h
      rcases h with h | h
      · rw [hshow, ← h]
        simp
      · have := ih x y h
        rw [hshow]
        simp [this.1, this.2]
  rcases h with h | h
  · exact hmm edges a b h
  · exact (hmm edges b a h).symm

/-- The final visited set of the traversal is exactly the traversed path
(in reverse visit order) on top of the initial visited set. -/
theorem traverseLoop_visited_eq (g : List (ℕ × List ℕ)) :
    ∀ (visited stack : List ℕ),
      (traverseLoop g visited stack).2 = (traverseLoop g visited stack).1.reverse ++ visited := by
  intro visited stack
  induction visited, stack using traverseLoop.induct g with
  | case1 visited => simp [traverseLoop]
  | case2 visited node rest h ih =>
    rw [traverseLoop]
    simp only [dif_pos h]
    exact ih
  | case3 visited node rest h ih =>
    rw [traverseLoop]
    simp only [dif_neg h]
    simp only at ih ⊢
    rw [ih]
    simp

/-- Initially-visited nodes stay visited. -/
theorem traverseLoop_mono (g : List (ℕ × List ℕ)) (visited stack : List ℕ)
    {n : ℕ} (h : n ∈ visited) : n ∈ (traverseLoop g visited stack).2 := by
  rw [traverseLoop_visited_eq]
  exact List.mem_append_right _ h

/-- The traversed path has no duplicates and avoids the initially-visited
nodes. -/
theorem traverseLoop_nodup (g : List (ℕ × List ℕ)) :
    ∀ (visited stack : List ℕ),
      (traverseLoop g visited stack).1.Nodup ∧
      ∀ n ∈ (traverseLoop g visited stack).1, n ∉ visited := by
  intro visited stack
  induction visited, stack using traverseLoop.induct g with
  | case1 visited => simp [traverseLoop]
  | case2 visited node rest h ih =>
    rw [traverseLoop]
    simp only [dif_pos h]
    exact ih
  | case3 visited node rest h ih =>
    rw [traverseLoop]
    simp only [dif_neg h]
    simp only at ih ⊢
    obtain ⟨ihnd, ihfresh⟩ := ih
    constructor
    · rw [List.nodup_cons]
      exact ⟨fun hc => (ihfresh _ hc) (by simp), ihnd⟩
    · intro n hn
      rcases List.mem_cons.mp hn with rfl | hn
      · exact h
      · intro hc
        exact (ihfresh n hn) (by simp [hc])

/-- Every node put on the stack ends up visited. -/
theorem traverseLoop_stack_mem (g : List (ℕ × List ℕ)) :
    ∀ (visited stack : List ℕ), ∀ s ∈ stack, s ∈ (traverseLoop g visited stack).2 := by
  intro visited stack
  induction visited, stack using traverseLoop.induct g with
  | case1 visited => simp
  | case2 visited node rest h ih =>
    intro s hs
    rw [traverseLoop]
    simp only [dif_pos h]
    rcases List.mem_cons.mp hs with rfl | hs
    · exact traverseLoop_mono g _ _ h
    · exact ih s hs
  | case3 visited node rest h ih =>
    intro s hs
    rw [traverseLoop]
    simp only [dif_neg h]
    simp only at ih ⊢
    rcases List.mem_cons.mp hs with rfl | hs
    · exact traverseLoop_mono g _ _ (by simp)
    · exact ih s (by simp [hs])

/-- Every neighbor of a traversed node ends up visited. -/
theorem traverseLoop_closed (g : List (ℕ × List ℕ)) :
    ∀ (visited stack : List ℕ), ∀ n ∈ (traverseLoop g visited stack).1,
      ∀ m ∈ adjOf g n, m ∈ (traverseLoop g visited stack).2 := by
  intro visited stack
  induction visited, stack using traverseLoop.induct g with
  | case1 visited => simp [traverseLoop]
  | case2 visited node rest h ih =>
    rw [traverseLoop]
    simp only [dif_pos h]
    exact ih
  | case3 visited node rest h ih =>
    rw [traverseLoop]
    simp only [dif_neg h]
    simp only at ih ⊢
    intro n hn m hm
    rcases List.mem_cons.mp hn with rfl | hn
    · exact traverseLoop_stack_mem g _ _ m (by simp [hm])
    · exact ih n hn m hm

/-- Every traversed node is reachable from some stack node. -/
theorem traverseLoop_reach (g : List (ℕ × List ℕ)) :
    ∀ (visited stack : List ℕ), ∀ n ∈ (traverseLoop g visited stack).1,
      ∃ s ∈ stack, gReach g s n := by
  intro visited stack
  induction visited, stack using traverseLoop.induct g with
  | case1 visited => simp [traverseLoop]
  | case2 visited node rest h ih =>
    rw [traverseLoop]
    simp only [dif_pos h]
    intro n hn
    obtain ⟨s, hs, hr⟩ := ih n hn
    exact ⟨s, by simp [hs], hr⟩
  | case3 visited node rest h ih =>
    rw [traverseLoop]
    simp only [dif_neg h]
    simp only at ih ⊢
    intro n hn
    rcases List.mem_cons.mp hn with rfl | hn
    · exact ⟨n, by simp, Relation.ReflTransGen.refl⟩
    · obtain ⟨s, hs, hr⟩ := ih n hn
      rcases List.mem_append.mp hs with hs | hs
      · exact ⟨node, by simp, Relation.ReflTransGen.head (List.mem_reverse.mp hs) hr⟩
      · exact ⟨s, by simp [hs], hr⟩

/-- On a symmetric graph, starting from an unvisited node with an
adjacency-closed visited set, the traversal reaches the whole connected
component of the start node. -/
theorem traverseLoop_complete (g : List (ℕ × List ℕ))
    (hsymm : ∀ a b, gAdj g a b → gAdj g b a)
    (visited : List ℕ) (hclosed : ∀ a ∈ visited, ∀ b ∈ adjOf g a, b ∈ visited)
    (k : ℕ) (hk : k ∉ visited) :
    ∀ n, gReach g k n → n ∈ (traverseLoop g visited [k]).1 := by
  have hvis := traverseLoop_visited_eq g visited [k]
  have hfresh := (traverseLoop_nodup g visited [k]).2
  have hmem2_iff : ∀ m, m ∈ (traverseLoop g visited [k]).2 ↔
      m ∈ (traverseLoop g visited [k]).1 ∨ m ∈ visited := by
    intro m
    rw [hvis]
    simp
  intro n hn
  induction hn with
  | refl =>
    have hkk : k ∈ (traverseLoop g visited [k]).2 :=
      traverseLoop_stack_mem g _ _ k (by simp)
    rcases (hmem2_iff k).mp hkk with h | h
    · exact h
    · exact absurd h hk
  | @tail b c hab hbc ih =>
    have hc2 : c ∈ (traverseLoop g visited [k]).2 :=
      traverseLoop_closed g visited [k] b ih c hbc
    rcases (hmem2_iff c).mp hc2 with h | h
    · exact h
    · exfalso
      exact (hfresh b ih) (hclosed c h b (hsymm b c hbc))

/-- Under the same hypotheses, the traversed path is exactly the connected
component of the start node. -/
theorem traverse_component (g : List (ℕ × List ℕ))
    (hsymm : ∀ a b, gAdj g a b → gAdj g b a)
    (visited : List ℕ) (hclosed : ∀ a ∈ visited, ∀ b ∈ adjOf g a, b ∈ visited)
    (k : ℕ) (hk : k ∉ visited) (n : ℕ) :
    n ∈ (traverse_graph g visited k).1 ↔ gReach g k n := by
  rw [traverse_graph]
  constructor
  · intro hn
    obtain ⟨s, hs, hr⟩ := traverseLoop_reach g visited [k] n hn
    rw [List.mem_singleton] at hs
    subst hs
    exact hr
  · exact traverseLoop_complete g hsymm visited hclosed k hk n

/-- Reachability stays inside the key set when adjacency does. -/
theorem gReach_mem_keys (g : List (ℕ × List ℕ))
    (hkeys : ∀ a b, gAdj g a b → b ∈ keysOf g)
    {k n : ℕ} (hk : k ∈ keysOf g) (h : gReach g k n) : n ∈ keysOf g := by
  induction h with
  | refl => exact hk
  | @tail b c hab hbc ih => exact hkeys b c hbc

/-- One step of the key loop preserves the invariant, visits the key, and
never unvisits a node. -/
theorem pathsStep_inv (g : List (ℕ × List ℕ))
    (hsymm : ∀ a b, gAdj g a b → gAdj g b a)
    (hkeys : ∀ a b, gAdj g a b → b ∈ keysOf g)
    (acc : List (List ℕ) × List ℕ) (hinv : pathsInv g acc)
    (key : ℕ) (hkey : key ∈ keysOf g) :
    pathsInv g (pathsStep g acc key) ∧
    key ∈ (pathsStep g acc key).2 ∧
    (∀ n ∈ acc.2, n ∈ (pathsStep g acc key).2) := by
  obtain ⟨hunion, hclosed, hnodup, hdisj, hgen, hsub⟩ := hinv
  by_cases hv : key ∈ acc.2
  · rw [pathsStep, if_pos hv]
    exact ⟨⟨hunion, hclosed, hnodup, hdisj, hgen, hsub⟩, hv, fun n hn => hn⟩
  · rw [pathsStep, if_neg hv]
    have hcomp : ∀ n, n ∈ (traverse_graph g acc.2 key).1 ↔ gReach g key n :=
      traverse_component g hsymm acc.2 hclosed key hv
    have hvis : (traverse_graph g acc.2 key).2 =
        (traverse_graph g acc.2 key).1.reverse ++ acc.2 :=
      traverseLoop_visited_eq g acc.2 [key]
    have hV : ∀ n, n ∈ (traverse_graph g acc.2 key).2 ↔
        n ∈ (traverse_graph g acc.2 key).1 ∨ n ∈ acc.2 := by
      intro n
      rw [hvis]
      simp
    have hfresh : ∀ n ∈ (traverse_graph g acc.2 key).1, n ∉ acc.2 :=
      (traverseLoop_nodup g acc.2 [key]).2
    refine ⟨⟨?_, ?_, ?_, ?_, ?_, ?_⟩, ?_, ?_⟩
    · intro n
      rw [hV, hunion n]
      simp only [List.mem_append, List.mem_singleton]
      constructor
      · rintro (hn | ⟨p, hp, hnp⟩)
        · exact ⟨(traverse_graph g acc.2 key).1, Or.inr rfl, hn⟩
        · exact ⟨p, Or.inl hp, hnp⟩
      · rintro ⟨p, hp | rfl, hnp⟩
        · exact Or.inr ⟨p, hp, hnp⟩
        · exact Or.inl hnp
    · intro a ha b hb
      rw [hV] at ha ⊢
      rcases ha with ha | ha
      · left
        rw [hcomp] at ha ⊢
        exact Relation.ReflTransGen.tail ha hb
      · exact Or.inr (hclosed a ha b hb)
    · intro p hp
      rcases List.mem_append.mp hp with hp | hp
      · exact hnodup p hp
      · rw [List.mem_singleton] at hp
        subst hp
        exact (traverseLoop_nodup g acc.2 [key]).1
    · rw [List.pairwise_append]
      refine ⟨hdisj, by simp, ?_⟩
      intro p hp q hq
      rw [List.mem_singleton] at hq
      subst hq
      intro a hap haq
      exact (hfresh a haq) ((hunion a).mpr ⟨p, hp, hap⟩)
    · intro p hp
      rcases List.mem_append.mp hp with hp | hp
      · exact hgen p hp
      · rw [List.mem_singleton] at hp
        subst hp
        exact ⟨key, hkey, hcomp⟩
    · intro n hn
      rw [hV] at hn
      rcases hn with hn | hn
      · exact gReach_mem_keys g hkeys hkey ((hcomp n).mp hn)
      · exact hsub n hn
    · exact traverseLoop_stack_mem g acc.2 [key] key (by simp)
    · intro n hn
      rw [hV]
      exact Or.inr hn

/-- The whole key loop preserves the invariant and visits every key. -/
theorem pathsFold_inv (g : List (ℕ × List ℕ))
    (hsymm : ∀ a b, gAdj g a b → gAdj g b a)
    (hkeys : ∀ a b, gAdj g a b → b ∈ keysOf g) :
    ∀ (ks : List ℕ) (acc : List (List ℕ) × List ℕ),
      (∀ x ∈ ks, x ∈ keysOf g) → pathsInv g acc →
      pathsInv g (ks.foldl (pathsStep g) acc) ∧
      (∀ x ∈ ks, x ∈ (ks.foldl (pathsStep g) acc).2) ∧
      (∀ n ∈ acc.2, n ∈ (ks.foldl (pathsStep g) acc).2)
  | [], acc, _, hinv => ⟨hinv, by simp, fun n hn => hn⟩
  | x :: ks, acc, hks, hinv => by
    rw [List.foldl_cons]
    have hx := hks x (by simp)
    obtain ⟨hinv', hxmem, hmono⟩ := pathsStep_inv g hsymm hkeys acc hinv x hx
    obtain ⟨hinv2, hall, hmono2⟩ :=
      pathsFold_inv g hsymm hkeys ks _ (fun y hy => hks y (by simp [hy])) hinv'
    refine ⟨hinv2, ?_, fun n hn => hmono2 n (hmono n hn)⟩
    intro y hy
    rcases List.mem_cons.mp hy with rfl | hy
    · exact hmono2 y hxmem
    · exact hall y hy

/-- The empty accumulator satisfies the invariant. -/
theorem pathsInv_nil (g : List (ℕ × List ℕ)) : pathsInv g ([], []) := by
  refine ⟨by simp, by simp, by simp, by simp, by simp, by simp⟩

/-- Reachability in the built graph coincides with edge-list reachability. -/
theorem gReach_build_iff (edges : List (ℕ × ℕ)) (k n : ℕ) :
    gReach (build_graph edges) k n ↔ reaches edges k n := by
  constructor
  · exact Relation.ReflTransGen.mono (fun a b h => (mem_adjOf_build edges a b).mp h)
  · exact Relation.ReflTransGen.mono (fun a b h => (mem_adjOf_build edges a b).mpr h)

/-- The undirected adjacency is symmetric, hence so is reachability. -/
theorem reaches_symm (edges : List (ℕ × ℕ)) {a b : ℕ} (h : reaches edges a b) :
    reaches edges b a := by
  have hs : Symmetric (adjRel edges) := by
    intro x y hxy
    rw [adjRel] at hxy ⊢
    tauto
  exact Relation.ReflTransGen.symmetric hs h

/-- Reachability from an endpoint stays among the endpoints. -/
theorem reaches_endpoints (edges : List (ℕ × ℕ)) {k n : ℕ}
    (hk : k ∈ endpoints edges) (h : reaches edges k n) : n ∈ endpoints edges := by
  have hg : gReach (build_graph edges) k n := (gReach_build_iff edges k n).mpr h
  have hin := gReach_mem_keys (build_graph edges)
    (fun a b hab => (gAdj_build_keys edges hab).2)
    ((mem_keysOf_build edges k).mpr hk) hg
  exact (mem_keysOf_build edges n).mp hin

/-- Mutually reachable nodes have the same component. -/
theorem component_eq_of_reaches (edges : List (ℕ × ℕ)) {a b : ℕ}
    (hab : reaches edges a b) : component edges a = component edges b := by
  ext m
  simp only [component, Finset.mem_filter]
  constructor
  · rintro ⟨hm, hr⟩
    exact ⟨hm, Relation.ReflTransGen.trans (reaches_symm edges hab) hr⟩
  · rintro ⟨hm, hr⟩
    exact ⟨hm, Relation.ReflTransGen.trans hab hr⟩

/-- C1: on the graph built from a boundary-edge list, the loops returned by
`get_paths_from_graph` partition the node set exactly once — their
concatenation has no duplicates and contains exactly the edge endpoints —
and the number of loops equals the number of connected components. -/
theorem get_paths_from_graph_partition (edges : List (ℕ × ℕ)) :
    (get_paths_from_graph (build_graph edges)).flatten.Nodup ∧
    (∀ n, n ∈ (get_paths_from_graph (build_graph edges)).flatten ↔ n ∈ endpoints edges) ∧
    (get_paths_from_graph (build_graph edges)).length = numComponents edges := by
  have hsymm : ∀ a b, gAdj (build_graph edges) a b → gAdj (build_graph edges) b a :=
    fun a b h => gAdj_build_symm edges h
  have hkeys : ∀ a b, gAdj (build_graph edges) a b → b ∈ keysOf (build_graph edges) :=
    fun a b h => (gAdj_build_keys edges h).2
  obtain ⟨hinv, hall, -⟩ := pathsFold_inv (build_graph edges) hsymm hkeys
    (keysOf (build_graph edges)) ([], []) (fun x hx => hx) (pathsInv_nil _)
  simp only [pathsInv] at hinv
  obtain ⟨hunion, hclosed, hnodup, hdisj, hgen, hsub⟩ := hinv
  have hchar : ∀ p ∈ ((keysOf (build_graph edges)).foldl
        (pathsStep (build_graph edges)) ([], [])).1,
      ∃ k, k ∈ endpoints edges ∧ (∀ n, n ∈ p ↔ reaches edges k n) ∧
        p.toFinset = component edges k := by
    intro p hp
    obtain ⟨k, hk, hkp⟩ := hgen p hp
    have hkend : k ∈ endpoints edges := (mem_keysOf_build edges k).mp hk
    have hiff : ∀ n, n ∈ p ↔ reaches edges k n := by
      intro n
      rw [hkp n, gReach_build_iff]
    refine ⟨k, hkend, hiff, ?_⟩
    ext m
    simp only [component, Finset.mem_filter, List.mem_toFinset]
    constructor
    · intro hm
      exact ⟨reaches_endpoints edges hkend ((hiff m).mp hm), (hiff m).mp hm⟩
    · rintro ⟨-, hr⟩
      exact (hiff m).mpr hr
  have hflat : ((keysOf (build_graph edges)).foldl
      (pathsStep (build_graph edges)) ([], [])).1.flatten.Nodup := by
    rw [List.nodup_flatten]
    exact ⟨hnodup, hdisj⟩
  have hmem : ∀ n, n ∈ ((keysOf (build_graph edges)).foldl
      (pathsStep (build_graph edges)) ([], [])).1.flatten ↔ n ∈ endpoints edges := by
    intro n
    rw [List.mem_flatten]
    constructor
    · rintro ⟨p, hp, hnp⟩
      exact (mem_keysOf_build edges n).mp (hsub n ((hunion n).mpr ⟨p, hp, hnp⟩))
    · intro hn
      exact (hunion n).mp (hall n ((mem_keysOf_build edges n).mpr hn))
  have hne : ((keysOf (build_graph edges)).foldl
      (pathsStep (build_graph edges)) ([], [])).1.Pairwise
        (fun p q => p.toFinset ≠ q.toFinset) := by
    refine hdisj.imp_of_mem ?_
    intro p q hp hq hpq heq
    obtain ⟨k, -, hiff, -⟩ := hchar p hp
    have hkp : k ∈ p := (hiff k).mpr Relation.ReflTransGen.refl
    have hkq : k ∈ q := List.mem_toFinset.mp (heq ▸ List.mem_toFinset.mpr hkp)
    exact hpq hkp hkq
  have hmapnd : (((keysOf (build_graph edges)).foldl
      (pathsStep (build_graph edges)) ([], [])).1.map List.toFinset).Nodup :=
    List.pairwise_map.mpr hne
  have himage : (((keysOf (build_graph edges)).foldl
      (pathsStep (build_graph edges)) ([], [])).1.map List.toFinset).toFinset =
      (endpoints edges).toFinset.image (component edges) := by
    ext t
    rw [List.mem_toFinset, List.mem_map, Finset.mem_image]
    constructor
    · rintro ⟨p, hp, rfl⟩
      obtain ⟨k, hkend, -, hptf⟩ := hchar p hp
      exact ⟨k, List.mem_toFinset.mpr hkend, hptf.symm⟩
    · rintro ⟨n, hn, rfl⟩
      have hnend : n ∈ endpoints edges := List.mem_toFinset.mp hn
      have hnvis := hall n ((mem_keysOf_build edges n).mpr hnend)
      obtain ⟨p, hp, hnp⟩ := (hunion n).mp hnvis
      obtain ⟨k, hkend, hiff, hptf⟩ := hchar p hp
      refine ⟨p, hp, ?_⟩
      rw [hptf]
      exact component_eq_of_reaches edges ((hiff n).mp hnp)
  have hcount : ((keysOf (build_graph edges)).foldl
      (pathsStep (build_graph edges)) ([], [])).1.length = numComponents edges := by
    rw [numComponents, ← himage, List.toFinset_card_of_nodup hmapnd, List.length_map]
  exact ⟨hflat, hmem, hcount⟩
